import Mathlib

/-!
Verification of the Sobel edge-detection pipeline (src/edge_detection.py)
against its natural-language specification.

The program is a linear pipeline over a pixel-buffer abstraction
(`SimpleImage` from the external simpleimage library): grayscale
conversion, horizontal/vertical Sobel gradient filtering, gradient
magnitude combination, and side-by-side compositing.

Shallow embedding conventions:
- Channel values are exact rationals (the spec's data model, section 3,
  treats channel values as conceptually unbounded numbers and the source
  never clamps); Python's floor division is `Int.floor` of the rational
  quotient, and `int(math.sqrt(n))` on the nonnegative integer `n` is the
  integer square root `Nat.sqrt` (proved equal to the floor of the real
  square root below).
- A buffer is a width, a height, and a total pixel map over integer
  coordinates.  `SimpleImage.blank` is modelled from the spec: the
  simpleimage library is not part of src/; the spec only requires a fresh
  buffer of the given dimensions, and every claim below reads only
  coordinates that the stages overwrite, so the fill value is never
  observable (it is fixed here as white, the library's documented default).
- Each imperative per-pixel loop of the source is embedded as a `foldl`
  over the exact coordinate list the Python `range` loops produce, with
  the loop body threading the tuple of buffers in scope, so that writes
  to the output buffer and (absence of) writes to the input buffers are
  both explicit.
- The bounds-checked pixel access of the spec (sections 3 and 7,
  OutOfRangeAccess) is modelled from the spec by `SimpleImage.get_pixel?`,
  returning `none` on an out-of-range access; the `Option`-valued
  `edge_detect?` embeds the Magnitude Combiner with every pixel access
  checked, which is what settles the error-handling claim C1.
-/

namespace EdgeDetection

/-- An RGB pixel; channels are exact rationals (spec section 3: numeric
intensities, unbounded during intermediate computation, never clamped by
the source). -/
structure Pixel where
  red : ℚ
  green : ℚ
  blue : ℚ
  deriving DecidableEq

/-- A pixel buffer: `width`, `height`, and a dense pixel map.  Python
coordinates are `(x, y)` with `x` the width direction. -/
structure SimpleImage where
  width : ℕ
  height : ℕ
  pix : ℤ → ℤ → Pixel

/-- Unchecked pixel read, `image.get_pixel(x, y)`.  (All reads performed by
the embedded pipeline are at in-bounds coordinates; the checked variant
`get_pixel?` below is used where fallibility itself is the question.) -/
def SimpleImage.get_pixel (img : SimpleImage) (x y : ℤ) : Pixel :=
  img.pix x y

/-- `image.set_pixel(x, y, p)`: point update of the pixel map. -/
def set_pixel (img : SimpleImage) (x y : ℤ) (p : Pixel) : SimpleImage :=
  { img with pix := fun i j => if i = x ∧ j = y then p else img.pix i j }

/-- Modelled from the spec: `SimpleImage.blank(width, height)` from the
simpleimage library (not part of src/) creates a fresh buffer of the given
dimensions filled with the default background color (white).  No claim
observes the fill: every stage overwrites every coordinate it exposes. -/
def SimpleImage.blank (width height : ℕ) : SimpleImage :=
  ⟨width, height, fun _ _ => ⟨255, 255, 255⟩⟩

/-- Modelled from the spec: bounds-checked pixel access (spec sections 3
and 7).  An out-of-range access is a loud failure (OutOfRangeAccess),
embedded as `none`. -/
def SimpleImage.get_pixel? (img : SimpleImage) (x y : ℤ) : Option Pixel :=
  if 0 ≤ x ∧ x < (img.width : ℤ) ∧ 0 ≤ y ∧ y < (img.height : ℤ) then
    some (img.pix x y)
  else
    none

/-- The coordinate list produced by `for x in range(width): for y in
range(height)`, as `(x, y)` pairs in loop order. -/
def allCoords (width height : ℕ) : List (ℤ × ℤ) :=
  ((List.range width).map (fun n : ℕ => (n : ℤ))) ×ˢ
    ((List.range height).map (fun n : ℕ => (n : ℤ)))

/-- The coordinate list produced by `for x in range(1, width - 2): for y in
range(1, height - 2)` (the gradient filters' interior loops), as `(x, y)`
pairs in loop order.  `List.range' 1 (w - 3)` is `[1, ..., w - 3]`, empty
when `w ≤ 3`, exactly as Python's `range(1, w - 2)`. -/
def interiorCoords (width height : ℕ) : List (ℤ × ℤ) :=
  ((List.range' 1 (width - 3)).map (fun n : ℕ => (n : ℤ))) ×ˢ
    ((List.range' 1 (height - 3)).map (fun n : ℕ => (n : ℤ)))

/-- `in_bound(x, y, width, height)` from the source: true iff
`0 <= x < width and 0 <= y < height`. -/
def in_bound (x y width height : ℤ) : Bool :=
  decide (0 ≤ x ∧ x < width) && decide (0 ≤ y ∧ y < height)

/-- The per-pixel body of `gray_scale`: the luminance
`0.299 * red + 0.587 * green + 0.114 * blue` assigned to all three
channels (exact rational coefficients; the source applies no rounding). -/
def gray_pixel (p : Pixel) : Pixel :=
  let gray : ℚ := (299 / 1000) * p.red + (587 / 1000) * p.green + (114 / 1000) * p.blue
  ⟨gray, gray, gray⟩

/-- The loop of `copy_image`: for every coordinate of the first buffer,
read its pixel and write it into the second buffer.  The state is the pair
(source `image`, destination `image_copy`); the body writes only to the
destination component. -/
def copy_loop (st : SimpleImage × SimpleImage) : SimpleImage × SimpleImage :=
  (allCoords st.1.width st.1.height).foldl
    (fun s c => (s.1, set_pixel s.2 c.1 c.2 (s.1.get_pixel c.1 c.2))) st

/-- `copy_image(image)`: a blank buffer of the same dimensions, every pixel
copied over. -/
def copy_image (image : SimpleImage) : SimpleImage :=
  (copy_loop (image, SimpleImage.blank image.width image.height)).2

/-- The loop of `gray_scale`: `for pixel in copy` mutates every pixel of
the copy in place, replacing its channels by the luminance of its current
value.  Each coordinate is visited exactly once. -/
def gray_loop (copy : SimpleImage) : SimpleImage :=
  (allCoords copy.width copy.height).foldl
    (fun b c => set_pixel b c.1 c.2 (gray_pixel (b.get_pixel c.1 c.2))) copy

/-- `gray_scale(image)`: copy the image, then gray every pixel of the copy
in place.  The input buffer never enters the mutation loop. -/
def gray_scale (image : SimpleImage) : SimpleImage :=
  gray_loop (copy_image image)

/-- `(pixel.red + pixel.green + pixel.blue) // 3`: Python floor division of
the channel sum by 3 (floor of the exact rational quotient). -/
def average (p : Pixel) : ℤ :=
  ⌊(p.red + p.green + p.blue) / 3⌋

/-- The flattened horizontal Sobel kernel `gx` from the source. -/
def gx : List ℤ := [-1, 0, 1, -2, 0, 2, -1, 0, 1]

/-- The flattened vertical Sobel kernel `gy` from the source. -/
def gy : List ℤ := [-1, -2, -1, 0, 0, 0, 1, 2, 1]

/-- The 9 neighbor coordinates visited by
`for i in range(x - 1, x + 2): for j in range(y - 1, y + 2)`, in loop
order (`i` outer, `j` inner). -/
def neighbors (x y : ℤ) : List (ℤ × ℤ) :=
  [(x - 1, y - 1), (x - 1, y), (x - 1, y + 1),
   (x, y - 1), (x, y), (x, y + 1),
   (x + 1, y - 1), (x + 1, y), (x + 1, y + 1)]

/-- One iteration of the gradient accumulation loop shared by
`horizontal_gradient` and `vertical_gradient`: the state is
`(add, index)`; when the neighbor is in bounds, its channel average times
`g[index]` is added and `index` advances, otherwise the neighbor is
skipped and `index` does not advance.  (`List.getD` with default 0 stands
for Python's `g[index]`; the index never reaches 9, so the default is
never read.) -/
def gradientStep (g : List ℤ) (image : SimpleImage) (s : ℤ × ℕ) (c : ℤ × ℤ) : ℤ × ℕ :=
  if in_bound c.1 c.2 (image.width : ℤ) (image.height : ℤ) then
    (s.1 + average (image.get_pixel c.1 c.2) * g.getD s.2 0, s.2 + 1)
  else s

/-- The accumulated sum `add` computed by the gradient functions at
`(x, y)`: fold of `gradientStep` over the 9 neighbors in loop order,
starting from `add = 0`, `index = 0`. -/
def gradient_sum (g : List ℤ) (x y : ℤ) (image : SimpleImage) : ℤ :=
  ((neighbors x y).foldl (gradientStep g image) (0, 0)).1

/-- The pixel written by the gradient functions: the accumulated sum
assigned identically to all three channels. -/
def grad_pixel (g : List ℤ) (image : SimpleImage) (x y : ℤ) : Pixel :=
  let add : ℚ := (gradient_sum g x y image : ℚ)
  ⟨add, add, add⟩

/-- `horizontal_gradient(x, y, image, image_copy)`: accumulate the `gx`
kernel response over the 3x3 neighborhood read from `image`, and write it
to all three channels of `image_copy` at `(x, y)`. -/
def horizontal_gradient (x y : ℤ) (image image_copy : SimpleImage) : SimpleImage :=
  set_pixel image_copy x y (grad_pixel gx image x y)

/-- `vertical_gradient(x, y, image, image_copy)`: same as
`horizontal_gradient` with the `gy` kernel. -/
def vertical_gradient (x y : ℤ) (image image_copy : SimpleImage) : SimpleImage :=
  set_pixel image_copy x y (grad_pixel gy image x y)

/-- The interior loop of `horizontal_edge_detect`: for every `(x, y)` with
`x in range(1, rows - 2)`, `y in range(1, columns - 2)` (the source binds
`rows = image.width`, `columns = image.height`), call
`horizontal_gradient(x, y, image, new_image)`.  The state is the pair
(input `image`, output `new_image`); the body writes only the output. -/
def horizontal_loop (st : SimpleImage × SimpleImage) : SimpleImage × SimpleImage :=
  (interiorCoords st.1.width st.1.height).foldl
    (fun s c => (s.1, horizontal_gradient c.1 c.2 s.1 s.2)) st

/-- `horizontal_edge_detect(image)`: copy the image, then overwrite the
interior pixels of the copy with the `gx` kernel response. -/
def horizontal_edge_detect (image : SimpleImage) : SimpleImage :=
  (horizontal_loop (image, copy_image image)).2

/-- The interior loop of `vertical_edge_detect` (same ranges as the
horizontal one, calling `vertical_gradient`). -/
def vertical_loop (st : SimpleImage × SimpleImage) : SimpleImage × SimpleImage :=
  (interiorCoords st.1.width st.1.height).foldl
    (fun s c => (s.1, vertical_gradient c.1 c.2 s.1 s.2)) st

/-- `vertical_edge_detect(image)`: copy the image, then overwrite the
interior pixels of the copy with the `gy` kernel response. -/
def vertical_edge_detect (image : SimpleImage) : SimpleImage :=
  (vertical_loop (image, copy_image image)).2

/-- The pixel written by `edge_detect` at `(x, y)`:
`int(math.sqrt(x_average ** 2 + y_average ** 2))` assigned to the three
channels, where the averages are the `(red + green + blue) // 3`
reductions of the two input pixels.  The argument of the square root is a
nonnegative integer, so `int(math.sqrt(..))` is its integer square root
(`Nat.sqrt`; the floor of the real square root, see
`gradient_magnitude_floor_sqrt` below). -/
def edge_pixel (horizontal vertical : SimpleImage) (x y : ℤ) : Pixel :=
  let x_average := average (horizontal.get_pixel x y)
  let y_average := average (vertical.get_pixel x y)
  let magnitude : ℚ := ((Nat.sqrt (x_average ^ 2 + y_average ^ 2).toNat : ℤ) : ℚ)
  ⟨magnitude, magnitude, magnitude⟩

/-- The loop of `edge_detect`: for every coordinate of the first input
(`width = horizontal.width`, `height = horizontal.height`), read the two
input pixels and write the magnitude pixel into `new_image`.  The state is
((`horizontal`, `vertical`), `new_image`); the body writes only the output
component. -/
def edge_loop (st : (SimpleImage × SimpleImage) × SimpleImage) :
    (SimpleImage × SimpleImage) × SimpleImage :=
  (allCoords st.1.1.width st.1.1.height).foldl
    (fun s c => (s.1, set_pixel s.2 c.1 c.2 (edge_pixel s.1.1 s.1.2 c.1 c.2))) st

/-- `edge_detect(horizontal, vertical)`: copy the first input, then
overwrite every pixel with the combined gradient magnitude.  The source
performs no dimension check on its inputs. -/
def edge_detect (horizontal vertical : SimpleImage) : SimpleImage :=
  (edge_loop ((horizontal, vertical), copy_image horizontal)).2

/-- The body of the `edge_detect` loop with every pixel access
bounds-checked (spec sections 3 and 7): reads `horizontal`, `vertical` and
`new_image` at `(x, y)` in source order, failing with `none`
(OutOfRangeAccess) if any coordinate is out of range, then writes the
magnitude pixel. -/
def edge_step? (horizontal vertical : SimpleImage) (b : SimpleImage) (c : ℤ × ℤ) :
    Option SimpleImage := do
  let x_pix ← horizontal.get_pixel? c.1 c.2
  let x_average := average x_pix
  let y_pix ← vertical.get_pixel? c.1 c.2
  let y_average := average y_pix
  let magnitude : ℚ := ((Nat.sqrt (x_average ^ 2 + y_average ^ 2).toNat : ℤ) : ℚ)
  let _ ← b.get_pixel? c.1 c.2
  pure (set_pixel b c.1 c.2 ⟨magnitude, magnitude, magnitude⟩)

/-- `edge_detect` with every pixel access bounds-checked: `none` exactly
when some access of the source would fail loudly.  The source contains no
other failure path — in particular no dimension validation — so this is
the complete error behavior of the Magnitude Combiner. -/
def edge_detect? (horizontal vertical : SimpleImage) : Option SimpleImage :=
  (allCoords horizontal.width horizontal.height).foldlM
    (edge_step? horizontal vertical) (copy_image horizontal)

/-- The loop of `output_together`: for every coordinate `(x, y)` of the
first input (`width = image1.width`, `height = image1.height`), write
`image1`'s pixel at `(x, y)` and `image2`'s pixel at `(width + x, y)` into
`double`.  The state is ((`image1`, `image2`), `double`); the body writes
only the output component. -/
def output_loop (st : (SimpleImage × SimpleImage) × SimpleImage) :
    (SimpleImage × SimpleImage) × SimpleImage :=
  (allCoords st.1.1.width st.1.1.height).foldl
    (fun s c =>
      (s.1,
        set_pixel (set_pixel s.2 c.1 c.2 (s.1.1.get_pixel c.1 c.2))
          ((st.1.1.width : ℤ) + c.1) c.2 (s.1.2.get_pixel c.1 c.2))) st

/-- `output_together(image1, image2)`: a blank buffer of width
`image1.width * 2` and height `image1.height`, with the first image copied
to the left half and the second to the right half. -/
def output_together (image1 image2 : SimpleImage) : SimpleImage :=
  (output_loop ((image1, image2),
    SimpleImage.blank (image1.width * 2) image1.height)).2

/-- The kernel response named by the specification: the sum over the 9
neighbor offsets, in loop order, of the neighbor's channel average times
the positionally corresponding flattened kernel weight. -/
def kernel_response (g : List ℤ) (image : SimpleImage) (x y : ℤ) : ℤ :=
  average (image.get_pixel (x - 1) (y - 1)) * g.getD 0 0 +
  average (image.get_pixel (x - 1) y) * g.getD 1 0 +
  average (image.get_pixel (x - 1) (y + 1)) * g.getD 2 0 +
  average (image.get_pixel x (y - 1)) * g.getD 3 0 +
  average (image.get_pixel x y) * g.getD 4 0 +
  average (image.get_pixel x (y + 1)) * g.getD 5 0 +
  average (image.get_pixel (x + 1) (y - 1)) * g.getD 6 0 +
  average (image.get_pixel (x + 1) y) * g.getD 7 0 +
  average (image.get_pixel (x + 1) (y + 1)) * g.getD 8 0

/-! ### Concrete buffers used to witness the theorems below -/

/-- A concrete non-uniform 4x4 buffer: pixel `(i, j)` is `(i, j, 3)`. -/
def witness_image : SimpleImage := ⟨4, 4, fun i j => ⟨(i : ℚ), (j : ℚ), 3⟩⟩

/-- A second concrete 4x4 buffer, distinguishable from `witness_image`. -/
def witness_right : SimpleImage := ⟨4, 4, fun i j => ⟨(2 * i : ℚ), (3 * j : ℚ), 7⟩⟩

/-- A concrete 1x1 buffer with channel average 4. -/
def witness_h : SimpleImage := ⟨1, 1, fun _ _ => ⟨3, 4, 5⟩⟩

/-- A concrete 1x1 buffer with channel average 9. -/
def witness_v : SimpleImage := ⟨1, 1, fun _ _ => ⟨9, 10, 8⟩⟩

/-- A concrete uniform 4x4 buffer (every pixel `(7, 7, 7)`). -/
def witness_uniform : SimpleImage := ⟨4, 4, fun _ _ => ⟨7, 7, 7⟩⟩

/-- A concrete 3x5 buffer, too narrow for the gradient filters' interior
range to be nonempty. -/
def witness_small : SimpleImage := ⟨3, 5, fun i j => ⟨(i : ℚ) + j, (i : ℚ), (j : ℚ)⟩⟩

/-- The 4x4 first input of the dimension-mismatch scenario of claim C1. -/
def mismatched_horizontal : SimpleImage := ⟨4, 4, fun _ _ => ⟨0, 0, 0⟩⟩

/-- The 4x5 second input of the dimension-mismatch scenario of claim C1. -/
def mismatched_vertical : SimpleImage := ⟨4, 5, fun _ _ => ⟨0, 0, 0⟩⟩

/-! ### Generic lemmas about the embedded loops -/

/-- Extensionality for buffers: equal dimensions and a pointwise equal
pixel map give equal buffers. -/
theorem SimpleImage.ext_pix {a b : SimpleImage} (hw : a.width = b.width)
    (hh : a.height = b.height) (hp : ∀ i j : ℤ, a.pix i j = b.pix i j) : a = b := by
  cases a with
  | mk wa ha pa =>
    cases b with
    | mk wb hb pb =>
      simp only at hw hh
      subst hw hh
      have hpp : pa = pb := funext fun i => funext fun j => hp i j
      rw [hpp]

/-- Reading a buffer after a point write. -/
theorem set_pixel_pix (img : SimpleImage) (x y : ℤ) (p : Pixel) (i j : ℤ) :
    (set_pixel img x y p).pix i j = if i = x ∧ j = y then p else img.pix i j := rfl

@[simp]
theorem set_pixel_width (img : SimpleImage) (x y : ℤ) (p : Pixel) :
    (set_pixel img x y p).width = img.width := rfl

@[simp]
theorem set_pixel_height (img : SimpleImage) (x y : ℤ) (p : Pixel) :
    (set_pixel img x y p).height = img.height := rfl

/-- A loop whose body leaves the first state component untouched leaves it
untouched after any number of iterations. -/
theorem foldl_fst {σ τ γ : Type} (g : σ × τ → γ → τ) (coords : List γ) (st : σ × τ) :
    (coords.foldl (fun s c => (s.1, g s c)) st).1 = st.1 := by
  induction coords generalizing st with
  | nil => rfl
  | cons c cs ih => simpa using ih (st.1, g st c)

/-- A loop whose body only rewrites the second state component, reading the
first, is the corresponding loop over the second component with the first
held fixed. -/
theorem foldl_pair {σ τ γ : Type} (f : σ → γ → τ → τ) (coords : List γ) (a : σ) (b : τ) :
    coords.foldl (fun s c => (s.1, f s.1 c s.2)) (a, b) =
      (a, coords.foldl (fun t c => f a c t) b) := by
  induction coords generalizing b with
  | nil => rfl
  | cons c cs ih => simpa using ih (f a c b)

/-- Width is invariant under any loop of point writes. -/
theorem foldl_width {γ : Type} (g : SimpleImage → γ → SimpleImage)
    (hg : ∀ t c, (g t c).width = t.width) (coords : List γ) (b : SimpleImage) :
    (coords.foldl g b).width = b.width := by
  induction coords generalizing b with
  | nil => rfl
  | cons c cs ih => rw [List.foldl_cons, ih, hg]

/-- Height is invariant under any loop of point writes. -/
theorem foldl_height {γ : Type} (g : SimpleImage → γ → SimpleImage)
    (hg : ∀ t c, (g t c).height = t.height) (coords : List γ) (b : SimpleImage) :
    (coords.foldl g b).height = b.height := by
  induction coords generalizing b with
  | nil => rfl
  | cons c cs ih => rw [List.foldl_cons, ih, hg]

/-- A loop writing `F c` at each coordinate `c` of a list, where the value
depends only on the coordinate: the result holds `F` on the list and the
initial buffer elsewhere. -/
theorem foldl_write_pix (F : ℤ × ℤ → Pixel) (coords : List (ℤ × ℤ))
    (b : SimpleImage) (i j : ℤ) :
    (coords.foldl (fun t c => set_pixel t c.1 c.2 (F c)) b).pix i j =
      if (i, j) ∈ coords then F (i, j) else b.pix i j := by
  induction coords generalizing b with
  | nil => simp
  | cons c cs ih =>
    rw [List.foldl_cons, ih]
    by_cases hm : (i, j) ∈ cs
    · simp [hm]
    · by_cases he : (i, j) = c
      · subst he
        simp [hm, set_pixel_pix]
      · have h1 : ¬(i = c.1 ∧ j = c.2) := by
          intro hc
          exact he (Prod.ext hc.1 hc.2)
        simp [hm, he, set_pixel_pix, h1]

/-- The in-place graying loop over a duplicate-free coordinate list: the
result holds the grayed original pixel on the list and the original pixel
elsewhere. -/
theorem foldl_gray_pix (coords : List (ℤ × ℤ)) (hnd : coords.Nodup)
    (b : SimpleImage) (i j : ℤ) :
    (coords.foldl (fun t c => set_pixel t c.1 c.2 (gray_pixel (t.get_pixel c.1 c.2))) b).pix i j =
      if (i, j) ∈ coords then gray_pixel (b.pix i j) else b.pix i j := by
  induction coords generalizing b with
  | nil => simp
  | cons c cs ih =>
    rw [List.foldl_cons, ih (List.Nodup.of_cons hnd)]
    by_cases hm : (i, j) ∈ cs
    · have he : ¬(i = c.1 ∧ j = c.2) := by
        intro hc
        have hcc : (i, j) = c := Prod.ext hc.1 hc.2
        rw [hcc] at hm
        exact (List.nodup_cons.1 hnd).1 hm
      simp [hm, set_pixel_pix, he, SimpleImage.get_pixel]
    · by_cases he : (i, j) = c
      · subst he
        simp [hm, set_pixel_pix, SimpleImage.get_pixel]
      · have h1 : ¬(i = c.1 ∧ j = c.2) := by
          intro hc
          exact he (Prod.ext hc.1 hc.2)
        simp [hm, he, set_pixel_pix, h1]

/-- Membership in the full coordinate list is exactly being in bounds. -/
theorem mem_allCoords {w h : ℕ} {i j : ℤ} :
    (i, j) ∈ allCoords w h ↔ 0 ≤ i ∧ i < (w : ℤ) ∧ 0 ≤ j ∧ j < (h : ℤ) := by
  simp only [allCoords, List.mem_product, List.mem_map, List.mem_range]
  constructor
  · rintro ⟨⟨a, ha, rfl⟩, ⟨b, hb, rfl⟩⟩
    omega
  · rintro ⟨h1, h2, h3, h4⟩
    exact ⟨⟨i.toNat, by omega, by omega⟩, ⟨j.toNat, by omega, by omega⟩⟩

/-- The full coordinate list has no duplicates. -/
theorem allCoords_nodup (w h : ℕ) : (allCoords w h).Nodup := by
  apply List.Nodup.product
  · exact List.Nodup.map (fun a b hab => by exact_mod_cast hab) (List.nodup_range _)
  · exact List.Nodup.map (fun a b hab => by exact_mod_cast hab) (List.nodup_range _)

/-- Membership in the interior coordinate list is exactly the spec's
interior range `1 ≤ x ≤ width - 3`, `1 ≤ y ≤ height - 3`. -/
theorem mem_interiorCoords {w h : ℕ} {i j : ℤ} :
    (i, j) ∈ interiorCoords w h ↔
      1 ≤ i ∧ i ≤ (w : ℤ) - 3 ∧ 1 ≤ j ∧ j ≤ (h : ℤ) - 3 := by
  simp only [interiorCoords, List.mem_product, List.mem_map, List.mem_range']
  constructor
  · rintro ⟨⟨a, ⟨k, hk, rfl⟩, rfl⟩, ⟨b, ⟨l, hl, rfl⟩, rfl⟩⟩
    omega
  · rintro ⟨h1, h2, h3, h4⟩
    refine ⟨⟨i.toNat, ⟨i.toNat - 1, by omega, by omega⟩, by omega⟩,
      ⟨j.toNat, ⟨j.toNat - 1, by omega, by omega⟩, by omega⟩⟩

/-- The interior coordinate list is empty for buffers of width or height
at most 3 (Python's `range(1, n - 2)` is empty for `n ≤ 3`). -/
theorem interiorCoords_eq_nil {w h : ℕ} (hsm : w ≤ 3 ∨ h ≤ 3) :
    interiorCoords w h = [] := by
  rcases hsm with hw | hh
  · have : w - 3 = 0 := by omega
    simp [interiorCoords, this]
  · have : h - 3 = 0 := by omega
    simp [interiorCoords, this]

/-! ### Characterization of each pipeline stage -/

theorem copy_loop_snd (a b : SimpleImage) :
    (copy_loop (a, b)).2 =
      (allCoords a.width a.height).foldl
        (fun t c => set_pixel t c.1 c.2 (a.get_pixel c.1 c.2)) b := by
  unfold copy_loop
  exact congrArg Prod.snd
    (foldl_pair
      (fun (s : SimpleImage) (c : ℤ × ℤ) (t : SimpleImage) =>
        set_pixel t c.1 c.2 (s.get_pixel c.1 c.2)) _ a b)

theorem copy_image_width (image : SimpleImage) :
    (copy_image image).width = image.width := by
  unfold copy_image
  rw [copy_loop_snd]
  exact foldl_width
    (fun (t : SimpleImage) (c : ℤ × ℤ) => set_pixel t c.1 c.2 (image.get_pixel c.1 c.2))
    (fun t c => rfl) _ _

theorem copy_image_height (image : SimpleImage) :
    (copy_image image).height = image.height := by
  unfold copy_image
  rw [copy_loop_snd]
  exact foldl_height
    (fun (t : SimpleImage) (c : ℤ × ℤ) => set_pixel t c.1 c.2 (image.get_pixel c.1 c.2))
    (fun t c => rfl) _ _

/-- `copy_image` holds the source pixel in bounds and the blank fill
elsewhere. -/
theorem copy_image_pix (image : SimpleImage) (i j : ℤ) :
    (copy_image image).pix i j =
      if 0 ≤ i ∧ i < (image.width : ℤ) ∧ 0 ≤ j ∧ j < (image.height : ℤ)
      then image.pix i j else ⟨255, 255, 255⟩ := by
  unfold copy_image
  rw [copy_loop_snd]
  simp only [foldl_write_pix, mem_allCoords, SimpleImage.get_pixel, SimpleImage.blank]

theorem gray_scale_width (image : SimpleImage) :
    (gray_scale image).width = image.width := by
  unfold gray_scale gray_loop
  rw [foldl_width
      (fun (b : SimpleImage) (c : ℤ × ℤ) =>
        set_pixel b c.1 c.2 (gray_pixel (b.get_pixel c.1 c.2)))
      (fun t c => rfl), copy_image_width]

theorem gray_scale_height (image : SimpleImage) :
    (gray_scale image).height = image.height := by
  unfold gray_scale gray_loop
  rw [foldl_height
      (fun (b : SimpleImage) (c : ℤ × ℤ) =>
        set_pixel b c.1 c.2 (gray_pixel (b.get_pixel c.1 c.2)))
      (fun t c => rfl), copy_image_height]

/-- `gray_scale` holds the grayed input pixel in bounds and the blank fill
elsewhere. -/
theorem gray_scale_pix (image : SimpleImage) (i j : ℤ) :
    (gray_scale image).pix i j =
      if 0 ≤ i ∧ i < (image.width : ℤ) ∧ 0 ≤ j ∧ j < (image.height : ℤ)
      then gray_pixel (image.pix i j) else ⟨255, 255, 255⟩ := by
  unfold gray_scale gray_loop
  rw [foldl_gray_pix _ (allCoords_nodup _ _), copy_image_width, copy_image_height]
  simp only [mem_allCoords, copy_image_pix]
  by_cases hb : 0 ≤ i ∧ i < (image.width : ℤ) ∧ 0 ≤ j ∧ j < (image.height : ℤ)
  · simp [hb]
  · simp [hb]

theorem horizontal_loop_snd (a b : SimpleImage) :
    (horizontal_loop (a, b)).2 =
      (interiorCoords a.width a.height).foldl
        (fun t c => set_pixel t c.1 c.2 (grad_pixel gx a c.1 c.2)) b := by
  unfold horizontal_loop
  exact congrArg Prod.snd
    (foldl_pair
      (fun (s : SimpleImage) (c : ℤ × ℤ) (t : SimpleImage) =>
        horizontal_gradient c.1 c.2 s t) _ a b)

theorem vertical_loop_snd (a b : SimpleImage) :
    (vertical_loop (a, b)).2 =
      (interiorCoords a.width a.height).foldl
        (fun t c => set_pixel t c.1 c.2 (grad_pixel gy a c.1 c.2)) b := by
  unfold vertical_loop
  exact congrArg Prod.snd
    (foldl_pair
      (fun (s : SimpleImage) (c : ℤ × ℤ) (t : SimpleImage) =>
        vertical_gradient c.1 c.2 s t) _ a b)

theorem horizontal_edge_detect_width (image : SimpleImage) :
    (horizontal_edge_detect image).width = image.width := by
  unfold horizontal_edge_detect
  rw [horizontal_loop_snd,
    foldl_width
      (fun (t : SimpleImage) (c : ℤ × ℤ) => set_pixel t c.1 c.2 (grad_pixel gx image c.1 c.2))
      (fun t c => rfl), copy_image_width]

theorem horizontal_edge_detect_height (image : SimpleImage) :
    (horizontal_edge_detect image).height = image.height := by
  unfold horizontal_edge_detect
  rw [horizontal_loop_snd,
    foldl_height
      (fun (t : SimpleImage) (c : ℤ × ℤ) => set_pixel t c.1 c.2 (grad_pixel gx image c.1 c.2))
      (fun t c => rfl), copy_image_height]

theorem vertical_edge_detect_width (image : SimpleImage) :
    (vertical_edge_detect image).width = image.width := by
  unfold vertical_edge_detect
  rw [vertical_loop_snd,
    foldl_width
      (fun (t : SimpleImage) (c : ℤ × ℤ) => set_pixel t c.1 c.2 (grad_pixel gy image c.1 c.2))
      (fun t c => rfl), copy_image_width]

theorem vertical_edge_detect_height (image : SimpleImage) :
    (vertical_edge_detect image).height = image.height := by
  unfold vertical_edge_detect
  rw [vertical_loop_snd,
    foldl_height
      (fun (t : SimpleImage) (c : ℤ × ℤ) => set_pixel t c.1 c.2 (grad_pixel gy image c.1 c.2))
      (fun t c => rfl), copy_image_height]

/-- `horizontal_edge_detect` holds the `gx` response on the interior range
and the copied pixel elsewhere. -/
theorem horizontal_edge_detect_pix (image : SimpleImage) (i j : ℤ) :
    (horizontal_edge_detect image).pix i j =
      if 1 ≤ i ∧ i ≤ (image.width : ℤ) - 3 ∧ 1 ≤ j ∧ j ≤ (image.height : ℤ) - 3
      then grad_pixel gx image i j
      else (copy_image image).pix i j := by
  unfold horizontal_edge_detect
  rw [horizontal_loop_snd]
  simp only [foldl_write_pix, mem_interiorCoords]

/-- `vertical_edge_detect` holds the `gy` response on the interior range
and the copied pixel elsewhere. -/
theorem vertical_edge_detect_pix (image : SimpleImage) (i j : ℤ) :
    (vertical_edge_detect image).pix i j =
      if 1 ≤ i ∧ i ≤ (image.width : ℤ) - 3 ∧ 1 ≤ j ∧ j ≤ (image.height : ℤ) - 3
      then grad_pixel gy image i j
      else (copy_image image).pix i j := by
  unfold vertical_edge_detect
  rw [vertical_loop_snd]
  simp only [foldl_write_pix, mem_interiorCoords]

theorem edge_loop_snd (hv : SimpleImage × SimpleImage) (b : SimpleImage) :
    (edge_loop (hv, b)).2 =
      (allCoords hv.1.width hv.1.height).foldl
        (fun t c => set_pixel t c.1 c.2 (edge_pixel hv.1 hv.2 c.1 c.2)) b := by
  unfold edge_loop
  exact congrArg Prod.snd
    (foldl_pair
      (fun (s : SimpleImage × SimpleImage) (c : ℤ × ℤ) (t : SimpleImage) =>
        set_pixel t c.1 c.2 (edge_pixel s.1 s.2 c.1 c.2)) _ hv b)

theorem edge_detect_width (horizontal vertical : SimpleImage) :
    (edge_detect horizontal vertical).width = horizontal.width := by
  unfold edge_detect
  rw [edge_loop_snd,
    foldl_width
      (fun (t : SimpleImage) (c : ℤ × ℤ) =>
        set_pixel t c.1 c.2 (edge_pixel horizontal vertical c.1 c.2))
      (fun t c => rfl), copy_image_width]

theorem edge_detect_height (horizontal vertical : SimpleImage) :
    (edge_detect horizontal vertical).height = horizontal.height := by
  unfold edge_detect
  rw [edge_loop_snd,
    foldl_height
      (fun (t : SimpleImage) (c : ℤ × ℤ) =>
        set_pixel t c.1 c.2 (edge_pixel horizontal vertical c.1 c.2))
      (fun t c => rfl), copy_image_height]

/-- `edge_detect` holds the magnitude pixel everywhere in the first
input's bounds. -/
theorem edge_detect_pix (horizontal vertical : SimpleImage) (i j : ℤ) :
    (edge_detect horizontal vertical).pix i j =
      if 0 ≤ i ∧ i < (horizontal.width : ℤ) ∧ 0 ≤ j ∧ j < (horizontal.height : ℤ)
      then edge_pixel horizontal vertical i j
      else (copy_image horizontal).pix i j := by
  unfold edge_detect
  rw [edge_loop_snd]
  simp only [foldl_write_pix, mem_allCoords]

/-- The two-writes-per-iteration compositor loop, read on the left half:
the left write family lands below `w`, the right one at `w` or above, so a
coordinate below `w` only ever receives the left value. -/
theorem foldl_write2_pix_left (G H : ℤ × ℤ → Pixel) (w : ℤ) (coords : List (ℤ × ℤ))
    (hpos : ∀ c ∈ coords, 0 ≤ c.1) (b : SimpleImage) (i j : ℤ) (hi : i < w) :
    (coords.foldl
        (fun t c => set_pixel (set_pixel t c.1 c.2 (G c)) (w + c.1) c.2 (H c)) b).pix i j =
      if (i, j) ∈ coords then G (i, j) else b.pix i j := by
  induction coords generalizing b with
  | nil => simp
  | cons c cs ih =>
    rw [List.foldl_cons, ih (fun d hd => hpos d (List.mem_cons_of_mem c hd))]
    by_cases hm : (i, j) ∈ cs
    · simp [hm]
    · have hc1 : 0 ≤ c.1 := hpos c (List.mem_cons_self c cs)
      have houter : ¬(i = w + c.1 ∧ j = c.2) := by
        intro hc
        omega
      by_cases he : (i, j) = c
      · subst he
        rw [if_neg hm, set_pixel_pix, if_neg houter, set_pixel_pix,
          if_pos ⟨rfl, rfl⟩, if_pos (List.mem_cons_self _ _)]
      · have hinner : ¬(i = c.1 ∧ j = c.2) := fun hc => he (Prod.ext hc.1 hc.2)
        rw [if_neg hm, set_pixel_pix, if_neg houter, set_pixel_pix, if_neg hinner]
        simp [hm, he]

/-- The two-writes-per-iteration compositor loop, read on the right half:
a coordinate `w + x` with `0 ≤ x` only ever receives the right value, from
the iteration at `(x, y)`. -/
theorem foldl_write2_pix_right (G H : ℤ × ℤ → Pixel) (w : ℤ) (coords : List (ℤ × ℤ))
    (hlt : ∀ c ∈ coords, c.1 < w) (b : SimpleImage) (x y : ℤ) (hx : 0 ≤ x) :
    (coords.foldl
        (fun t c => set_pixel (set_pixel t c.1 c.2 (G c)) (w + c.1) c.2 (H c)) b).pix (w + x) y =
      if (x, y) ∈ coords then H (x, y) else b.pix (w + x) y := by
  induction coords generalizing b with
  | nil => simp
  | cons c cs ih =>
    rw [List.foldl_cons, ih (fun d hd => hlt d (List.mem_cons_of_mem c hd))]
    by_cases hm : (x, y) ∈ cs
    · simp [hm]
    · have hc1 : c.1 < w := hlt c (List.mem_cons_self c cs)
      have hinner : ¬(w + x = c.1 ∧ y = c.2) := by
        intro hc
        omega
      by_cases he : (x, y) = c
      · subst he
        rw [if_neg hm, set_pixel_pix, if_pos ⟨rfl, rfl⟩, if_pos (List.mem_cons_self _ _)]
      · have houter : ¬(w + x = w + c.1 ∧ y = c.2) := by
          intro hc
          exact he (Prod.ext (by omega) hc.2)
        rw [if_neg hm, set_pixel_pix, if_neg houter, set_pixel_pix, if_neg hinner]
        simp [hm, he]

theorem output_loop_snd (ab : SimpleImage × SimpleImage) (b : SimpleImage) :
    (output_loop (ab, b)).2 =
      (allCoords ab.1.width ab.1.height).foldl
        (fun t c =>
          set_pixel (set_pixel t c.1 c.2 (ab.1.get_pixel c.1 c.2))
            ((ab.1.width : ℤ) + c.1) c.2 (ab.2.get_pixel c.1 c.2)) b := by
  unfold output_loop
  exact congrArg Prod.snd
    (foldl_pair
      (fun (s : SimpleImage × SimpleImage) (c : ℤ × ℤ) (t : SimpleImage) =>
        set_pixel (set_pixel t c.1 c.2 (s.1.get_pixel c.1 c.2))
          ((ab.1.width : ℤ) + c.1) c.2 (s.2.get_pixel c.1 c.2)) _ ab b)

theorem output_together_width (image1 image2 : SimpleImage) :
    (output_together image1 image2).width = image1.width * 2 := by
  unfold output_together
  rw [output_loop_snd]
  exact foldl_width
    (fun (t : SimpleImage) (c : ℤ × ℤ) =>
      set_pixel (set_pixel t c.1 c.2 (image1.get_pixel c.1 c.2))
        ((image1.width : ℤ) + c.1) c.2 (image2.get_pixel c.1 c.2))
    (fun t c => rfl) _ _

theorem output_together_height (image1 image2 : SimpleImage) :
    (output_together image1 image2).height = image1.height := by
  unfold output_together
  rw [output_loop_snd]
  exact foldl_height
    (fun (t : SimpleImage) (c : ℤ × ℤ) =>
      set_pixel (set_pixel t c.1 c.2 (image1.get_pixel c.1 c.2))
        ((image1.width : ℤ) + c.1) c.2 (image2.get_pixel c.1 c.2))
    (fun t c => rfl) _ _

/-- The left half of the compositor output is the first input. -/
theorem output_together_pix_left (image1 image2 : SimpleImage) (x y : ℤ)
    (h1 : 0 ≤ x) (h2 : x < (image1.width : ℤ)) (h3 : 0 ≤ y) (h4 : y < (image1.height : ℤ)) :
    (output_together image1 image2).pix x y = image1.pix x y := by
  unfold output_together
  rw [output_loop_snd]
  have hpos : ∀ c ∈ allCoords image1.width image1.height, 0 ≤ c.1 := by
    intro c hc
    obtain ⟨c1, c2⟩ := c
    exact (mem_allCoords.1 hc).1
  rw [foldl_write2_pix_left _ _ _ _ hpos _ x y h2]
  simp [mem_allCoords, h1, h2, h3, h4, SimpleImage.get_pixel]

/-- The right half of the compositor output is the second input. -/
theorem output_together_pix_right (image1 image2 : SimpleImage) (x y : ℤ)
    (h1 : 0 ≤ x) (h2 : x < (image1.width : ℤ)) (h3 : 0 ≤ y) (h4 : y < (image1.height : ℤ)) :
    (output_together image1 image2).pix ((image1.width : ℤ) + x) y = image2.pix x y := by
  unfold output_together
  rw [output_loop_snd]
  have hlt : ∀ c ∈ allCoords image1.width image1.height, c.1 < (image1.width : ℤ) := by
    intro c hc
    obtain ⟨c1, c2⟩ := c
    exact (mem_allCoords.1 hc).2.1
  rw [foldl_write2_pix_right _ _ _ _ hlt _ x y h1]
  simp [mem_allCoords, h1, h2, h3, h4, SimpleImage.get_pixel]

/-! ### The gradient accumulation loop on interior pixels -/

theorem in_bound_eq_true {x y w h : ℤ} :
    in_bound x y w h = true ↔ 0 ≤ x ∧ x < w ∧ 0 ≤ y ∧ y < h := by
  simp [in_bound, and_assoc]

theorem gradientStep_inb (g : List ℤ) (image : SimpleImage) (s : ℤ × ℕ) (a b : ℤ)
    (h : in_bound a b (image.width : ℤ) (image.height : ℤ) = true) :
    gradientStep g image s (a, b) =
      (s.1 + average (image.get_pixel a b) * g.getD s.2 0, s.2 + 1) := by
  simp [gradientStep, h]

/-- On interior pixels every neighbor is in bounds. -/
theorem neighbors_all_in_bound {w h x y : ℤ}
    (hx1 : 1 ≤ x) (hx2 : x ≤ w - 3) (hy1 : 1 ≤ y) (hy2 : y ≤ h - 3) :
    ∀ c ∈ neighbors x y, in_bound c.1 c.2 w h = true := by
  intro c hc
  simp only [neighbors, List.mem_cons, List.not_mem_nil, or_false] at hc
  rcases hc with rfl | rfl | rfl | rfl | rfl | rfl | rfl | rfl | rfl <;>
    · simp only [in_bound_eq_true]
      omega

/-- On interior pixels the skip branch of the gradient loop is dead and
the index counter stays aligned with the 3x3 grid: the accumulated sum is
the positional kernel response. -/
theorem gradient_sum_eq_kernel_response (g : List ℤ) (image : SimpleImage) (x y : ℤ)
    (hx1 : 1 ≤ x) (hx2 : x ≤ (image.width : ℤ) - 3)
    (hy1 : 1 ≤ y) (hy2 : y ≤ (image.height : ℤ) - 3) :
    gradient_sum g x y image = kernel_response g image x y := by
  have hall := neighbors_all_in_bound (w := (image.width : ℤ)) (h := (image.height : ℤ))
    hx1 hx2 hy1 hy2
  have h0 := hall (x - 1, y - 1) (by simp [neighbors])
  have h1 := hall (x - 1, y) (by simp [neighbors])
  have h2 := hall (x - 1, y + 1) (by simp [neighbors])
  have h3 := hall (x, y - 1) (by simp [neighbors])
  have h4 := hall (x, y) (by simp [neighbors])
  have h5 := hall (x, y + 1) (by simp [neighbors])
  have h6 := hall (x + 1, y - 1) (by simp [neighbors])
  have h7 := hall (x + 1, y) (by simp [neighbors])
  have h8 := hall (x + 1, y + 1) (by simp [neighbors])
  simp only [gradient_sum, neighbors, List.foldl_cons, List.foldl_nil,
    gradientStep_inb, h0, h1, h2, h3, h4, h5, h6, h7, h8]
  norm_num [kernel_response]

/-! ### Arithmetic bridges -/

/-- The grayscale map is idempotent on pixels: the luminance weights sum
to one. -/
theorem gray_pixel_idem (p : Pixel) : gray_pixel (gray_pixel p) = gray_pixel p := by
  simp only [gray_pixel, Pixel.mk.injEq]
  refine ⟨by ring, by ring, by ring⟩

/-- `int(math.sqrt(a ** 2 + b ** 2))` on integers, i.e. the integer square
root of the nonnegative integer `a ^ 2 + b ^ 2`, is the floor of the real
square root named by the specification. -/
theorem gradient_magnitude_floor_sqrt (a b : ℤ) :
    ((Nat.sqrt (a ^ 2 + b ^ 2).toNat : ℕ) : ℤ) =
      ⌊Real.sqrt ((a : ℝ) ^ 2 + (b : ℝ) ^ 2)⌋ := by
  have hnn : (0:ℤ) ≤ a ^ 2 + b ^ 2 := by positivity
  have h2 : (((a ^ 2 + b ^ 2).toNat : ℤ)) = a ^ 2 + b ^ 2 := Int.toNat_of_nonneg hnn
  have h1 : (((a ^ 2 + b ^ 2).toNat : ℕ) : ℝ) = (a : ℝ) ^ 2 + (b : ℝ) ^ 2 := by
    exact_mod_cast congrArg (fun z : ℤ => (z : ℝ)) h2
  rw [← h1, Real.floor_real_sqrt_eq_nat_sqrt]

/-! ### The claims -/

/-- C1: the claim says the Magnitude Combiner validates that its two
inputs have identical dimensions and raises DimensionMismatch on a 4x4
and a 4x5 buffer.  The code contains no such validation: on exactly that
input every bounds-checked pixel access succeeds (the loop ranges over the
first input's 4x4 coordinates, all in range for the 4x5 second input), so
the fully checked `edge_detect?` completes without any error and produces
a 4x4 output buffer — the silent truncation the specification forbids. -/
theorem C1_edge_detect_no_dimension_check :
    (edge_detect? mismatched_horizontal mismatched_vertical).isSome = true ∧
    Option.map (fun b => (b.width, b.height))
      (edge_detect? mismatched_horizontal mismatched_vertical) = some (4, 4) :=
  ⟨by decide, by decide⟩

/-- C3: the Grayscale Converter returns a buffer of identical dimensions
in which, for every pixel, all three channels equal
`L = 0.299 * R + 0.587 * G + 0.114 * B` of the corresponding input pixel,
with no rounding or clamping (exact rational arithmetic). -/
theorem C3_gray_scale_luminance (image : SimpleImage) :
    (gray_scale image).width = image.width ∧
    (gray_scale image).height = image.height ∧
    ∀ x y : ℤ, 0 ≤ x → x < (image.width : ℤ) → 0 ≤ y → y < (image.height : ℤ) →
      (gray_scale image).pix x y =
        ⟨(299 / 1000 : ℚ) * (image.pix x y).red + (587 / 1000) * (image.pix x y).green +
            (114 / 1000) * (image.pix x y).blue,
          (299 / 1000 : ℚ) * (image.pix x y).red + (587 / 1000) * (image.pix x y).green +
            (114 / 1000) * (image.pix x y).blue,
          (299 / 1000 : ℚ) * (image.pix x y).red + (587 / 1000) * (image.pix x y).green +
            (114 / 1000) * (image.pix x y).blue⟩ := by
  refine ⟨gray_scale_width image, gray_scale_height image, ?_⟩
  intro x y h1 h2 h3 h4
  rw [gray_scale_pix, if_pos ⟨h1, h2, h3, h4⟩]
  rfl

theorem C3_witness :
    ((0:ℤ) ≤ 0 ∧ (0:ℤ) < (witness_h.width : ℤ) ∧ (0:ℤ) ≤ 0 ∧
      (0:ℤ) < (witness_h.height : ℤ)) ∧
    (gray_scale witness_h).pix 0 0 =
      ⟨(299 / 1000 : ℚ) * (witness_h.pix 0 0).red + (587 / 1000) * (witness_h.pix 0 0).green +
          (114 / 1000) * (witness_h.pix 0 0).blue,
        (299 / 1000 : ℚ) * (witness_h.pix 0 0).red + (587 / 1000) * (witness_h.pix 0 0).green +
          (114 / 1000) * (witness_h.pix 0 0).blue,
        (299 / 1000 : ℚ) * (witness_h.pix 0 0).red + (587 / 1000) * (witness_h.pix 0 0).green +
          (114 / 1000) * (witness_h.pix 0 0).blue⟩ :=
  ⟨⟨by decide, by decide, by decide, by decide⟩,
    (C3_gray_scale_luminance witness_h).2.2 0 0 (by decide) (by decide) (by decide) (by decide)⟩

/-- C7: the Grayscale Converter is idempotent: applying `gray_scale` twice
yields the same buffer as applying it once (the luminance weights sum to
one, so a pixel whose three channels already hold the luminance is mapped
to itself). -/
theorem C7_gray_scale_idempotent (image : SimpleImage) :
    gray_scale (gray_scale image) = gray_scale image := by
  apply SimpleImage.ext_pix
  · rw [gray_scale_width, gray_scale_width]
  · rw [gray_scale_height, gray_scale_height]
  · intro i j
    rw [gray_scale_pix (gray_scale image), gray_scale_width, gray_scale_height,
      gray_scale_pix image]
    by_cases hb : 0 ≤ i ∧ i < (image.width : ℤ) ∧ 0 ≤ j ∧ j < (image.height : ℤ)
    · rw [if_pos hb, if_pos hb]
      exact gray_pixel_idem _
    · rw [if_neg hb, if_neg hb]

/-- C4: on the iterated interior range `1 ≤ x ≤ width - 3`,
`1 ≤ y ≤ height - 3`, all 9 neighbor coordinates pass `in_bound`, so the
out-of-bounds skip branch of the gradient accumulation loop is never
taken and the kernel-weight index stays positionally aligned with the 3x3
grid: the accumulated sum equals the positional kernel response, for any
kernel list. -/
theorem C4_interior_skip_branch_dead (image : SimpleImage) (x y : ℤ)
    (hx1 : 1 ≤ x) (hx2 : x ≤ (image.width : ℤ) - 3)
    (hy1 : 1 ≤ y) (hy2 : y ≤ (image.height : ℤ) - 3) :
    (∀ c ∈ neighbors x y,
      in_bound c.1 c.2 (image.width : ℤ) (image.height : ℤ) = true) ∧
    ∀ g : List ℤ, gradient_sum g x y image = kernel_response g image x y :=
  ⟨neighbors_all_in_bound hx1 hx2 hy1 hy2,
    fun g => gradient_sum_eq_kernel_response g image x y hx1 hx2 hy1 hy2⟩

theorem C4_witness :
    ((1:ℤ) ≤ 1 ∧ (1:ℤ) ≤ (witness_image.width : ℤ) - 3 ∧ (1:ℤ) ≤ 1 ∧
      (1:ℤ) ≤ (witness_image.height : ℤ) - 3) ∧
    (∀ c ∈ neighbors 1 1,
      in_bound c.1 c.2 (witness_image.width : ℤ) (witness_image.height : ℤ) = true) ∧
    ∀ g : List ℤ, gradient_sum g 1 1 witness_image = kernel_response g witness_image 1 1 :=
  ⟨⟨by decide, by decide, by decide, by decide⟩,
    C4_interior_skip_branch_dead witness_image 1 1 (by decide) (by decide) (by decide)
      (by decide)⟩

/-- C8: on a uniform buffer (every in-bounds pixel holds the same value),
both gradient filters respond with zero at every interior pixel: the
kernel weights of `gx` and of `gy` each sum to zero. -/
theorem C8_uniform_zero_response (image : SimpleImage) (c : Pixel)
    (hu : ∀ x y : ℤ, 0 ≤ x → x < (image.width : ℤ) → 0 ≤ y → y < (image.height : ℤ) →
      image.pix x y = c) :
    ∀ x y : ℤ, 1 ≤ x → x ≤ (image.width : ℤ) - 3 → 1 ≤ y → y ≤ (image.height : ℤ) - 3 →
      (horizontal_edge_detect image).pix x y = ⟨0, 0, 0⟩ ∧
      (vertical_edge_detect image).pix x y = ⟨0, 0, 0⟩ := by
  intro x y hx1 hx2 hy1 hy2
  have hint : 1 ≤ x ∧ x ≤ (image.width : ℤ) - 3 ∧ 1 ≤ y ∧ y ≤ (image.height : ℤ) - 3 :=
    ⟨hx1, hx2, hy1, hy2⟩
  have h00 : image.get_pixel (x - 1) (y - 1) = c := hu _ _ (by omega) (by omega) (by omega) (by omega)
  have h01 : image.get_pixel (x - 1) y = c := hu _ _ (by omega) (by omega) (by omega) (by omega)
  have h02 : image.get_pixel (x - 1) (y + 1) = c := hu _ _ (by omega) (by omega) (by omega) (by omega)
  have h10 : image.get_pixel x (y - 1) = c := hu _ _ (by omega) (by omega) (by omega) (by omega)
  have h11 : image.get_pixel x y = c := hu _ _ (by omega) (by omega) (by omega) (by omega)
  have h12 : image.get_pixel x (y + 1) = c := hu _ _ (by omega) (by omega) (by omega) (by omega)
  have h20 : image.get_pixel (x + 1) (y - 1) = c := hu _ _ (by omega) (by omega) (by omega) (by omega)
  have h21 : image.get_pixel (x + 1) y = c := hu _ _ (by omega) (by omega) (by omega) (by omega)
  have h22 : image.get_pixel (x + 1) (y + 1) = c := hu _ _ (by omega) (by omega) (by omega) (by omega)
  have hgx : kernel_response gx image x y = 0 := by
    unfold kernel_response
    rw [h00, h01, h02, h10, h11, h12, h20, h21, h22,
      show gx.getD 0 0 = -1 from rfl, show gx.getD 1 0 = 0 from rfl,
      show gx.getD 2 0 = 1 from rfl, show gx.getD 3 0 = -2 from rfl,
      show gx.getD 4 0 = 0 from rfl, show gx.getD 5 0 = 2 from rfl,
      show gx.getD 6 0 = -1 from rfl, show gx.getD 7 0 = 0 from rfl,
      show gx.getD 8 0 = 1 from rfl]
    ring
  have hgy : kernel_response gy image x y = 0 := by
    unfold kernel_response
    rw [h00, h01, h02, h10, h11, h12, h20, h21, h22,
      show gy.getD 0 0 = -1 from rfl, show gy.getD 1 0 = -2 from rfl,
      show gy.getD 2 0 = -1 from rfl, show gy.getD 3 0 = 0 from rfl,
      show gy.getD 4 0 = 0 from rfl, show gy.getD 5 0 = 0 from rfl,
      show gy.getD 6 0 = 1 from rfl, show gy.getD 7 0 = 2 from rfl,
      show gy.getD 8 0 = 1 from rfl]
    ring
  constructor
  · rw [horizontal_edge_detect_pix, if_pos hint]
    simp only [grad_pixel,
      gradient_sum_eq_kernel_response gx image x y hx1 hx2 hy1 hy2, hgx]
    norm_num
  · rw [vertical_edge_detect_pix, if_pos hint]
    simp only [grad_pixel,
      gradient_sum_eq_kernel_response gy image x y hx1 hx2 hy1 hy2, hgy]
    norm_num

theorem C8_witness :
    (∀ x y : ℤ, 0 ≤ x → x < (witness_uniform.width : ℤ) → 0 ≤ y →
      y < (witness_uniform.height : ℤ) → witness_uniform.pix x y = ⟨7, 7, 7⟩) ∧
    ((1:ℤ) ≤ 1 ∧ (1:ℤ) ≤ (witness_uniform.width : ℤ) - 3 ∧ (1:ℤ) ≤ 1 ∧
      (1:ℤ) ≤ (witness_uniform.height : ℤ) - 3) ∧
    ((horizontal_edge_detect witness_uniform).pix 1 1 = ⟨0, 0, 0⟩ ∧
     (vertical_edge_detect witness_uniform).pix 1 1 = ⟨0, 0, 0⟩) :=
  ⟨fun x y _ _ _ _ => rfl,
    ⟨by decide, by decide, by decide, by decide⟩,
    C8_uniform_zero_response witness_uniform ⟨7, 7, 7⟩ (fun x y _ _ _ _ => rfl) 1 1
      (by decide) (by decide) (by decide) (by decide)⟩

/-- C10: for a buffer of width at most 3 or height at most 3 the interior
iteration range of both gradient filters is empty, so each returns the
plain copy of its input: every in-bounds pixel equals the input pixel. -/
theorem C10_small_buffer_pass_through (image : SimpleImage)
    (hsm : image.width ≤ 3 ∨ image.height ≤ 3) :
    horizontal_edge_detect image = copy_image image ∧
    vertical_edge_detect image = copy_image image ∧
    ∀ x y : ℤ, 0 ≤ x → x < (image.width : ℤ) → 0 ≤ y → y < (image.height : ℤ) →
      (horizontal_edge_detect image).pix x y = image.pix x y ∧
      (vertical_edge_detect image).pix x y = image.pix x y := by
  have hnil := interiorCoords_eq_nil hsm
  have hhor : horizontal_edge_detect image = copy_image image := by
    unfold horizontal_edge_detect
    rw [horizontal_loop_snd, hnil, List.foldl_nil]
  have hver : vertical_edge_detect image = copy_image image := by
    unfold vertical_edge_detect
    rw [vertical_loop_snd, hnil, List.foldl_nil]
  refine ⟨hhor, hver, ?_⟩
  intro x y h1 h2 h3 h4
  rw [hhor, hver, copy_image_pix, if_pos ⟨h1, h2, h3, h4⟩]
  exact ⟨rfl, rfl⟩

theorem C10_witness :
    (witness_small.width ≤ 3 ∨ witness_small.height ≤ 3) ∧
    horizontal_edge_detect witness_small = copy_image witness_small ∧
    vertical_edge_detect witness_small = copy_image witness_small ∧
    ((horizontal_edge_detect witness_small).pix 2 4 = witness_small.pix 2 4 ∧
     (vertical_edge_detect witness_small).pix 2 4 = witness_small.pix 2 4) :=
  ⟨Or.inl (by decide),
    (C10_small_buffer_pass_through witness_small (Or.inl (by decide))).1,
    (C10_small_buffer_pass_through witness_small (Or.inl (by decide))).2.1,
    (C10_small_buffer_pass_through witness_small (Or.inl (by decide))).2.2 2 4
      (by decide) (by decide) (by decide) (by decide)⟩

/-- C2: each gradient filter returns a new buffer of the input's
dimensions in which exactly the pixels with `1 ≤ x ≤ width - 3` and
`1 ≤ y ≤ height - 3` are overwritten — with the sum, over the 9 neighbor
offsets in loop order, of the neighbor's `(R + G + B) // 3` average times
the positionally corresponding flattened kernel weight (`gx` for the
horizontal filter, `gy` for the vertical one), assigned identically to
all three channels — while every pixel outside that range keeps the value
copied from the input. -/
theorem C2_gradient_filter_response (image : SimpleImage) :
    ((horizontal_edge_detect image).width = image.width ∧
     (horizontal_edge_detect image).height = image.height ∧
     (vertical_edge_detect image).width = image.width ∧
     (vertical_edge_detect image).height = image.height) ∧
    ∀ x y : ℤ, 0 ≤ x → x < (image.width : ℤ) → 0 ≤ y → y < (image.height : ℤ) →
      ((1 ≤ x ∧ x ≤ (image.width : ℤ) - 3 ∧ 1 ≤ y ∧ y ≤ (image.height : ℤ) - 3 →
          (horizontal_edge_detect image).pix x y =
            ⟨(kernel_response gx image x y : ℚ), (kernel_response gx image x y : ℚ),
              (kernel_response gx image x y : ℚ)⟩ ∧
          (vertical_edge_detect image).pix x y =
            ⟨(kernel_response gy image x y : ℚ), (kernel_response gy image x y : ℚ),
              (kernel_response gy image x y : ℚ)⟩) ∧
       (¬(1 ≤ x ∧ x ≤ (image.width : ℤ) - 3 ∧ 1 ≤ y ∧ y ≤ (image.height : ℤ) - 3) →
          (horizontal_edge_detect image).pix x y = image.pix x y ∧
          (vertical_edge_detect image).pix x y = image.pix x y)) := by
  refine ⟨⟨horizontal_edge_detect_width image, horizontal_edge_detect_height image,
    vertical_edge_detect_width image, vertical_edge_detect_height image⟩, ?_⟩
  intro x y h1 h2 h3 h4
  constructor
  · intro hint
    obtain ⟨hx1, hx2, hy1, hy2⟩ := hint
    constructor
    · rw [horizontal_edge_detect_pix, if_pos ⟨hx1, hx2, hy1, hy2⟩]
      simp only [grad_pixel, gradient_sum_eq_kernel_response gx image x y hx1 hx2 hy1 hy2]
    · rw [vertical_edge_detect_pix, if_pos ⟨hx1, hx2, hy1, hy2⟩]
      simp only [grad_pixel, gradient_sum_eq_kernel_response gy image x y hx1 hx2 hy1 hy2]
  · intro hni
    constructor
    · rw [horizontal_edge_detect_pix, if_neg hni, copy_image_pix, if_pos ⟨h1, h2, h3, h4⟩]
    · rw [vertical_edge_detect_pix, if_neg hni, copy_image_pix, if_pos ⟨h1, h2, h3, h4⟩]

theorem C2_witness :
    ((0:ℤ) ≤ 1 ∧ (1:ℤ) < (witness_image.width : ℤ) ∧ (0:ℤ) ≤ 1 ∧
      (1:ℤ) < (witness_image.height : ℤ) ∧
      ((1:ℤ) ≤ 1 ∧ (1:ℤ) ≤ (witness_image.width : ℤ) - 3 ∧ (1:ℤ) ≤ 1 ∧
        (1:ℤ) ≤ (witness_image.height : ℤ) - 3) ∧
      ¬((1:ℤ) ≤ 0 ∧ (0:ℤ) ≤ (witness_image.width : ℤ) - 3 ∧ (1:ℤ) ≤ 2 ∧
        (2:ℤ) ≤ (witness_image.height : ℤ) - 3)) ∧
    ((horizontal_edge_detect witness_image).pix 1 1 =
        ⟨(kernel_response gx witness_image 1 1 : ℚ), (kernel_response gx witness_image 1 1 : ℚ),
          (kernel_response gx witness_image 1 1 : ℚ)⟩ ∧
      (vertical_edge_detect witness_image).pix 1 1 =
        ⟨(kernel_response gy witness_image 1 1 : ℚ), (kernel_response gy witness_image 1 1 : ℚ),
          (kernel_response gy witness_image 1 1 : ℚ)⟩) ∧
    ((horizontal_edge_detect witness_image).pix 0 2 = witness_image.pix 0 2 ∧
      (vertical_edge_detect witness_image).pix 0 2 = witness_image.pix 0 2) :=
  ⟨⟨by decide, by decide, by decide, by decide, ⟨by decide, by decide, by decide, by decide⟩,
      by decide⟩,
    ((C2_gradient_filter_response witness_image).2 1 1 (by decide) (by decide) (by decide)
        (by decide)).1 ⟨by decide, by decide, by decide, by decide⟩,
    ((C2_gradient_filter_response witness_image).2 0 2 (by decide) (by decide) (by decide)
        (by decide)).2 (by decide)⟩

/-- C5: on equal-dimension inputs the Magnitude Combiner returns a buffer
of the same dimensions in which every pixel's three channels hold
`floor(sqrt(hx ^ 2 + hy ^ 2))` cast to integer, where `hx` and `hy` are
the `(R + G + B) // 3` averages of the corresponding pixels of the
horizontal and vertical input buffers. -/
theorem C5_edge_detect_magnitude (horizontal vertical : SimpleImage)
    (hw : horizontal.width = vertical.width) (hh : horizontal.height = vertical.height) :
    (edge_detect horizontal vertical).width = horizontal.width ∧
    (edge_detect horizontal vertical).height = horizontal.height ∧
    ∀ x y : ℤ, 0 ≤ x → x < (horizontal.width : ℤ) → 0 ≤ y → y < (horizontal.height : ℤ) →
      (edge_detect horizontal vertical).pix x y =
        ⟨((⌊Real.sqrt ((average (horizontal.get_pixel x y) : ℝ) ^ 2 +
              (average (vertical.get_pixel x y) : ℝ) ^ 2)⌋ : ℤ) : ℚ),
         ((⌊Real.sqrt ((average (horizontal.get_pixel x y) : ℝ) ^ 2 +
              (average (vertical.get_pixel x y) : ℝ) ^ 2)⌋ : ℤ) : ℚ),
         ((⌊Real.sqrt ((average (horizontal.get_pixel x y) : ℝ) ^ 2 +
              (average (vertical.get_pixel x y) : ℝ) ^ 2)⌋ : ℤ) : ℚ)⟩ := by
  refine ⟨edge_detect_width horizontal vertical, edge_detect_height horizontal vertical, ?_⟩
  intro x y h1 h2 h3 h4
  rw [edge_detect_pix, if_pos ⟨h1, h2, h3, h4⟩]
  simp only [edge_pixel, gradient_magnitude_floor_sqrt]

theorem C5_witness :
    (witness_h.width = witness_v.width ∧ witness_h.height = witness_v.height ∧
      (0:ℤ) ≤ 0 ∧ (0:ℤ) < (witness_h.width : ℤ) ∧ (0:ℤ) ≤ 0 ∧
      (0:ℤ) < (witness_h.height : ℤ)) ∧
    (edge_detect witness_h witness_v).pix 0 0 =
      ⟨((⌊Real.sqrt ((average (witness_h.get_pixel 0 0) : ℝ) ^ 2 +
            (average (witness_v.get_pixel 0 0) : ℝ) ^ 2)⌋ : ℤ) : ℚ),
       ((⌊Real.sqrt ((average (witness_h.get_pixel 0 0) : ℝ) ^ 2 +
            (average (witness_v.get_pixel 0 0) : ℝ) ^ 2)⌋ : ℤ) : ℚ),
       ((⌊Real.sqrt ((average (witness_h.get_pixel 0 0) : ℝ) ^ 2 +
            (average (witness_v.get_pixel 0 0) : ℝ) ^ 2)⌋ : ℤ) : ℚ)⟩ :=
  ⟨⟨rfl, rfl, by decide, by decide, by decide, by decide⟩,
    (C5_edge_detect_magnitude witness_h witness_v rfl rfl).2.2 0 0 (by decide) (by decide)
      (by decide) (by decide)⟩

/-- C6: on two buffers of equal width `w` and equal height `h` the
Compositor returns a new buffer of width `2 * w` and height `h` in which
the pixel at `(x, y)` with `x < w` is the first input's pixel `(x, y)` and
the pixel at `(w + x, y)` is the second input's pixel `(x, y)`. -/
theorem C6_output_together_layout (image1 image2 : SimpleImage)
    (hw : image1.width = image2.width) (hh : image1.height = image2.height) :
    (output_together image1 image2).width = 2 * image1.width ∧
    (output_together image1 image2).height = image1.height ∧
    ∀ x y : ℤ, 0 ≤ x → x < (image1.width : ℤ) → 0 ≤ y → y < (image1.height : ℤ) →
      (output_together image1 image2).pix x y = image1.pix x y ∧
      (output_together image1 image2).pix ((image1.width : ℤ) + x) y = image2.pix x y := by
  refine ⟨?_, output_together_height image1 image2, ?_⟩
  · rw [output_together_width]
    omega
  · intro x y h1 h2 h3 h4
    exact ⟨output_together_pix_left image1 image2 x y h1 h2 h3 h4,
      output_together_pix_right image1 image2 x y h1 h2 h3 h4⟩

/-- The witness instantiates the compositor claim on two concrete 4x4
buffers at `(x, y) = (1, 2)`: output pixel `(4 + 1, 2) = (5, 2)` is the
second input's pixel `(1, 2)`. -/
theorem C6_witness :
    (witness_image.width = witness_right.width ∧
      witness_image.height = witness_right.height ∧
      (0:ℤ) ≤ 1 ∧ (1:ℤ) < (witness_image.width : ℤ) ∧ (0:ℤ) ≤ 2 ∧
      (2:ℤ) < (witness_image.height : ℤ)) ∧
    (output_together witness_image witness_right).width = 2 * witness_image.width ∧
    (output_together witness_image witness_right).height = witness_image.height ∧
    ((output_together witness_image witness_right).pix 1 2 = witness_image.pix 1 2 ∧
      (output_together witness_image witness_right).pix ((witness_image.width : ℤ) + 1) 2 =
        witness_right.pix 1 2) :=
  ⟨⟨rfl, rfl, by decide, by decide, by decide, by decide⟩,
    (C6_output_together_layout witness_image witness_right rfl rfl).1,
    (C6_output_together_layout witness_image witness_right rfl rfl).2.1,
    (C6_output_together_layout witness_image witness_right rfl rfl).2.2 1 2 (by decide)
      (by decide) (by decide) (by decide)⟩

/-- C9: no stage mutates an input buffer.  Every per-pixel loop of the
pipeline threads the buffers in scope as explicit state — the inputs in
the first component, the freshly created output in the second — and every
loop body writes only the output component, so after any number of
iterations the input component is returned unchanged: this covers the
copy loop (through which `gray_scale` reads its input; the graying loop
itself receives only the fresh copy), the two gradient-filter loops, the
Magnitude Combiner loop, and the Compositor loop. -/
theorem C9_inputs_unchanged :
    (∀ a b : SimpleImage, (copy_loop (a, b)).1 = a) ∧
    (∀ a b : SimpleImage, (horizontal_loop (a, b)).1 = a) ∧
    (∀ a b : SimpleImage, (vertical_loop (a, b)).1 = a) ∧
    (∀ (hv : SimpleImage × SimpleImage) (b : SimpleImage), (edge_loop (hv, b)).1 = hv) ∧
    (∀ (ab : SimpleImage × SimpleImage) (b : SimpleImage), (output_loop (ab, b)).1 = ab) := by
  refine ⟨fun a b => ?_, fun a b => ?_, fun a b => ?_, fun hv b => ?_, fun ab b => ?_⟩
  · exact foldl_fst
      (fun (s : SimpleImage × SimpleImage) (c : ℤ × ℤ) =>
        set_pixel s.2 c.1 c.2 (s.1.get_pixel c.1 c.2)) _ _
  · exact foldl_fst
      (fun (s : SimpleImage × SimpleImage) (c : ℤ × ℤ) =>
        horizontal_gradient c.1 c.2 s.1 s.2) _ _
  · exact foldl_fst
      (fun (s : SimpleImage × SimpleImage) (c : ℤ × ℤ) =>
        vertical_gradient c.1 c.2 s.1 s.2) _ _
  · exact foldl_fst
      (fun (s : (SimpleImage × SimpleImage) × SimpleImage) (c : ℤ × ℤ) =>
        set_pixel s.2 c.1 c.2 (edge_pixel s.1.1 s.1.2 c.1 c.2)) _ _
  · exact foldl_fst
      (fun (s : (SimpleImage × SimpleImage) × SimpleImage) (c : ℤ × ℤ) =>
        set_pixel (set_pixel s.2 c.1 c.2 (s.1.1.get_pixel c.1 c.2))
          ((ab.1.width : ℤ) + c.1) c.2 (s.1.2.get_pixel c.1 c.2)) _ _

end EdgeDetection
